import Mathlib

/-!
Verification of the MovieLens pre-processing pipeline (`pre-processing.py`).

The script's strings are Python `bytes` values; we model them as `List Char`.
Each Lean definition below embeds one Python function or expression of the
source, keeping the source's names where possible.
-/

set_option autoImplicit false

namespace PreProcessing

/-- Python byte-strings are modelled as lists of characters. -/
abbrev Str := List Char

/-- Whitespace as recognised by Python's `bytes.split()` with no separator
(space, tab, newline, carriage return, vertical tab, form feed). -/
def pyIsSpace (c : Char) : Bool :=
  c = ' ' || c = '\t' || c = '\n' || c = '\r' || c = '\x0b' || c = '\x0c'

/-- Accumulator-based word splitter: `splitWsAux s acc` scans `s`, where `acc`
holds the (reversed) characters of the word currently being read. -/
def splitWsAux : Str → Str → List Str
  | [], acc => if acc.isEmpty then [] else [acc.reverse]
  | c :: rest, acc =>
    if pyIsSpace c then
      if acc.isEmpty then splitWsAux rest []
      else acc.reverse :: splitWsAux rest []
    else splitWsAux rest (c :: acc)

/-- Embedding of Python `title.split()`: split on runs of whitespace,
discarding empty words. -/
def pySplit (s : Str) : List Str := splitWsAux s []

/-- Embedding of Python `genres.split(b'|')`: split on every occurrence of the
separator, keeping empty fields (so `b''.split(b'|') == [b'']`). -/
def splitSep (sep : Char) : Str → List Str
  | [] => [[]]
  | c :: rest =>
    match splitSep sep rest with
    | [] => if c = sep then [[], []] else [[c]]
    | w :: ws => if c = sep then [] :: w :: ws else (c :: w) :: ws

/-- Embedding of a Python list comprehension `[f x for x in l]` where each
`f x` may raise (e.g. a dict lookup): the first failure aborts the whole
comprehension. -/
def listComp {α β : Type} (f : α → Option β) : List α → Option (List β)
  | [] => some []
  | a :: l =>
    match f a with
    | none => none
    | some b => (listComp f l).map (b :: ·)

/-- Position of the first occurrence of `a` in a list, if any. -/
def idxOf? {α : Type} [DecidableEq α] (a : α) : List α → Option Nat
  | [] => none
  | b :: l => if b = a then some 0 else (idxOf? a l).map (· + 1)

/-- A Python dict mapping tokens to integers, modelled as an association list
with distinct keys. `dictGet` is `d[k]`, with `none` for `KeyError`. -/
def dictGet {α : Type} [DecidableEq α] (m : List (α × Nat)) (k : α) : Option Nat :=
  match m with
  | [] => none
  | (k', v) :: rest => if k' = k then some v else dictGet rest k

/-- Embedding of `{val: ii for ii, val in enumerate(enum, start)}` for a
duplicate-free enumeration `enum` of a Python set. -/
def mkIntMap {α : Type} (start : Nat) : List α → List (α × Nat)
  | [] => []
  | a :: l => (a, start) :: mkIntMap (start + 1) l

/-- Embedding of the NumPy fancy-index assignment `a[idxs] = 1`: each listed
position is set to `1` in order; an out-of-range index is an `IndexError`. -/
def npFancySet1 (a : List Nat) : List Nat → Option (List Nat)
  | [] => some a
  | i :: idxs => if i < a.length then npFancySet1 (a.set i 1) idxs else none

/-- Embedding of the helper returned by `genres_multi_hot(genre_int_map)`:
look up every pipe-separated genre token, then set those positions to 1 in a
zero vector of length `len(genre_int_map)`. -/
def genres_multi_hot (genre_int_map : List (Str × Nat)) (genres : Str) : Option (List Nat) :=
  match listComp (dictGet genre_int_map) (splitSep '|' genres) with
  | none => none
  | some genre_int_list => npFancySet1 (List.replicate genre_int_map.length 0) genre_int_list

/-- The two shapes a value of the `TitleIndex` column can take: a character
slice of the raw title (`np.array(title[:15])`) or a numeric vector. -/
inductive TitleEnc : Type
  | chars (s : Str)
  | vector (v : List Nat)
deriving DecidableEq

/-- Number of elements of a `TitleIndex` value. -/
def TitleEnc.len : TitleEnc → Nat
  | .chars s => s.length
  | .vector v => v.length

/-- Embedding of the NumPy slice assignment `a[:len(v)] = v` (for
`len(v) ≤ len(a)`): overwrite the prefix of `a` with `v`. -/
def npPrefixAssign (a v : List Nat) : List Nat :=
  v ++ a.drop v.length

/-- Embedding of the helper returned by `title_encode(word_int_map)`: look up
every whitespace-separated word of the title; if there are more than 15 words
return the first 15 characters of the raw title string, otherwise write the
word indices into a zero vector of length 15. -/
def title_encode (word_int_map : List (Str × Nat)) (title : Str) : Option TitleEnc :=
  match listComp (dictGet word_int_map) (pySplit title) with
  | none => none
  | some title_words =>
    if 15 < title_words.length then some (.chars (title.take 15))
    else some (.vector (npPrefixAssign (List.replicate 15 0) title_words))

/-! ### The users table (`load_data`, lines 109-119) -/

/-- One row of the users table after `users.filter(regex=...)`. -/
structure User where
  userId : Nat
  gender : Str
  age : Nat
  jobId : Nat
deriving DecidableEq

/-- The byte-string `b'F'`. -/
def fStr : Str := ['F']

/-- The byte-string `b'M'`. -/
def mStr : Str := ['M']

/-- Embedding of the dict literal `gender_map = {b'F': 0, b'M': 1}` read
through `Series.map` (an absent key becomes `NaN`, modelled as `none`). -/
def gender_map (g : Str) : Option Nat :=
  if g = fStr then some 0 else if g = mStr then some 1 else none

/-- Embedding of `users['GenderIndex'] = users['Gender'].map(gender_map)`. -/
def genderIndexCol (users : List User) : List (Option Nat) :=
  users.map (fun u => gender_map u.gender)

/-- Embedding of `age_map = {val: ii for ii, val in enumerate(set(users['Age']))}`
read through `Series.map`; `ageEnum` is the iteration order of the Python set,
which is unspecified, so theorems quantify over every enumeration of the
observed ages. -/
def age_map (ageEnum : List Nat) (a : Nat) : Option Nat :=
  dictGet (mkIntMap 0 ageEnum) a

/-- Embedding of `users['AgeIndex'] = users['Age'].map(age_map)`. -/
def ageIndexCol (ageEnum : List Nat) (users : List User) : List (Option Nat) :=
  users.map (fun u => age_map ageEnum u.age)

/-- `e` enumerates the Python set of the elements of `xs`: it lists each
distinct element exactly once, in some order. -/
def SetEnum {α : Type} (xs e : List α) : Prop :=
  e.Nodup ∧ ∀ a : α, a ∈ e ↔ a ∈ xs

/-! ### The movies table (`load_data`, lines 122-145) -/

/-- One row of the movies table; `titleWithoutYear` is the `TitleWithoutYear`
column, the year-stripped form of `Title` produced by the regex
`^(.*)\((\d+)\)$`. -/
structure Movie where
  movieId : Nat
  titleWithoutYear : Str
  genres : Str
deriving DecidableEq

/-- All genre tokens of the corpus, as collected by the loop
`for val in movies['Genres'].str.split(b'|'): genre_set.update(val)`. -/
def allGenreTokens (movies : List Movie) : List Str :=
  (movies.map (fun m => splitSep '|' m.genres)).flatten

/-- All title words of the corpus, as collected by the loop
`for val in movies['TitleWithoutYear'].str.split(): word_set.update(val)`. -/
def allTitleWords (movies : List Movie) : List Str :=
  (movies.map (fun m => pySplit m.titleWithoutYear)).flatten

/-- Embedding of `movies['GenresMultiHot'] = movies['Genres'].map(...)` for a
given enumeration `gEnum` of the genre set (`genre_int_map = mkIntMap 0 gEnum`). -/
def genresMultiHotCol (gEnum : List Str) (movies : List Movie) : List (Option (List Nat)) :=
  movies.map (fun m => genres_multi_hot (mkIntMap 0 gEnum) m.genres)

/-- Embedding of `movies['TitleIndex'] = movies['TitleWithoutYear'].map(...)`
for a given enumeration `wEnum` of the word set, with indices starting at 1
(`word_int_map = mkIntMap 1 wEnum`). -/
def titleIndexCol (wEnum : List Str) (movies : List Movie) : List (Option TitleEnc) :=
  movies.map (fun m => title_encode (mkIntMap 1 wEnum) m.titleWithoutYear)

/-! ### The fetcher (`download_ml_1m`, lines 36-65) -/

/-- The expected MD5 digest hard-coded in `download_ml_1m`. -/
def hash_code : String := "c4d9eecfca2ab87c1945afe126590906"

/-- Observable outcome of one run of the fetcher: whether a download was
performed, whether the hash assertion was evaluated, and either the returned
path or the assertion's failure message. -/
structure FetchOutcome where
  downloaded : Bool
  hashChecked : Bool
  result : Except String String

/-- Embedding of `download_ml_1m(save_path)`. The filesystem and network are
abstracted to two observations: `fileExists` (does `save_path/ml-1m.zip`
already exist) and `downloadedMd5` (the MD5 digest of the bytes a download
would retrieve). -/
def download_ml_1m (fileExists : Bool) (downloadedMd5 : String) (save_path : String) :
    FetchOutcome :=
  let save_pathname := save_path ++ "/ml-1m.zip"
  if fileExists then
    { downloaded := false, hashChecked := false, result := Except.ok save_pathname }
  else if downloadedMd5 = hash_code then
    { downloaded := true, hashChecked := true, result := Except.ok save_pathname }
  else
    { downloaded := true, hashChecked := true,
      result := Except.error (save_path ++ " file is corrupted. Remove the file and try again.") }

/-! ### The joiner/splitter (`train_test_split`, line 175) -/

/-- Modelled from the spec: `sklearn.model_selection.train_test_split` is
third-party library code not present in `src/`. Per the spec it draws a
shuffle of the row indices deterministically from `random_state`, takes a
`test_size` fraction of 0.2 (rounded up to whole rows) as the test partition
and the rest as the train partition, and applies the same row selection to the
features and the labels. The exact permutation of sklearn's Mersenne Twister
is not reproduced; the model uses a rotation determined by the seed, which is
a permutation of the indices as required. -/
def testCount (n : Nat) : Nat := (n + 4) / 5

/-- Modelled from the spec: the deterministic index shuffle drawn from the
seed (`random_state`). A rotation of `range n` by an amount computed from the
seed stands in for the library's pseudo-random permutation. -/
def permIndices (seed n : Nat) : List Nat :=
  (List.range n).rotate (seed % (n + 1))

/-- Result of the joint split: the four returned tables plus the row-index
membership of each partition. -/
structure TTSplit (α β : Type) where
  trainX : List α
  testX : List α
  trainY : List β
  testY : List β
  trainIdx : List Nat
  testIdx : List Nat

/-- Modelled from the spec: `train_test_split(X, y, test_size=0.2,
random_state=seed)` — shuffle the row indices deterministically from the
seed, put the first `ceil(0.2 * n)` shuffled rows in the test partition and
the remaining rows in the train partition, selecting the same rows from `X`
and from `y`. -/
def train_test_split {α β : Type} (X : List α) (y : List β) (seed : Nat) : TTSplit α β :=
  let n := X.length
  let k := testCount n
  let perm := permIndices seed n
  let te := perm.take k
  let tr := perm.drop k
  { trainX := tr.filterMap (fun i => X[i]?)
    testX := te.filterMap (fun i => X[i]?)
    trainY := tr.filterMap (fun i => y[i]?)
    testY := te.filterMap (fun i => y[i]?)
    trainIdx := tr
    testIdx := te }

/-! ### Helper lemmas about the embedding primitives -/

theorem listComp_isSome {α β : Type} (f : α → Option β) :
    ∀ l : List α, (∀ a ∈ l, (f a).isSome) → (listComp f l).isSome
  | [], _ => rfl
  | a :: l, h => by
    have ha := h a (by simp)
    have hl := listComp_isSome f l (fun x hx => h x (by simp [hx]))
    simp only [listComp]
    cases hfa : f a with
    | none => rw [hfa] at ha; simp at ha
    | some b =>
      cases hcl : listComp f l with
      | none => rw [hcl] at hl; simp at hl
      | some bs => simp

theorem listComp_length {α β : Type} (f : α → Option β) :
    ∀ (l : List α) (bs : List β), listComp f l = some bs → bs.length = l.length
  | [], bs, h => by simp only [listComp] at h; cases h; rfl
  | a :: l, bs, h => by
    simp only [listComp] at h
    cases hfa : f a with
    | none => rw [hfa] at h; cases h
    | some b =>
      rw [hfa] at h
      cases hcl : listComp f l with
      | none => rw [hcl] at h; cases h
      | some cs =>
        rw [hcl] at h
        cases h
        simp [listComp_length f l cs hcl]

theorem listComp_mem {α β : Type} (f : α → Option β) :
    ∀ (l : List α) (bs : List β), listComp f l = some bs →
      ∀ b : β, b ∈ bs ↔ ∃ a ∈ l, f a = some b
  | [], bs, h => by simp only [listComp] at h; cases h; simp
  | a :: l, bs, h => by
    simp only [listComp] at h
    cases hfa : f a with
    | none => rw [hfa] at h; cases h
    | some c =>
      rw [hfa] at h
      cases hcl : listComp f l with
      | none => rw [hcl] at h; cases h
      | some cs =>
        rw [hcl] at h
        cases h
        intro b
        have ih := listComp_mem f l cs hcl b
        constructor
        · intro hb
          rcases List.mem_cons.1 hb with hb | hb
          · exact ⟨a, by simp, hb ▸ hfa⟩
          · rcases ih.1 hb with ⟨x, hx, hfx⟩
            exact ⟨x, by simp [hx], hfx⟩
        · rintro ⟨x, hx, hfx⟩
          rcases List.mem_cons.1 hx with rfl | hx
          · rw [hfa] at hfx; cases hfx; simp
          · exact List.mem_cons.2 (Or.inr (ih.2 ⟨x, hx, hfx⟩))

theorem listComp_getElem? {α β : Type} (f : α → Option β) :
    ∀ (l : List α) (bs : List β), listComp f l = some bs →
      ∀ (i : Nat) (a : α), l[i]? = some a → ∃ b : β, bs[i]? = some b ∧ f a = some b
  | [], _, h => by simp only [listComp] at h; cases h; simp
  | a :: l, bs, h => by
    simp only [listComp] at h
    cases hfa : f a with
    | none => rw [hfa] at h; cases h
    | some c =>
      rw [hfa] at h
      cases hcl : listComp f l with
      | none => rw [hcl] at h; cases h
      | some cs =>
        rw [hcl] at h
        cases h
        intro i x hx
        cases i with
        | zero =>
          simp only [List.getElem?_cons_zero] at hx
          cases hx
          exact ⟨c, List.getElem?_cons_zero, hfa⟩
        | succ j =>
          simp only [List.getElem?_cons_succ] at hx ⊢
          exact listComp_getElem? f l cs hcl j x hx

theorem idxOf?_isSome_iff {α : Type} [DecidableEq α] (a : α) :
    ∀ l : List α, (idxOf? a l).isSome ↔ a ∈ l
  | [] => by simp [idxOf?]
  | b :: l => by
    simp only [idxOf?, List.mem_cons]
    by_cases hb : b = a
    · simp [hb]
    · simp only [hb, if_false]
      have hmap : (Option.map (· + 1) (idxOf? a l)).isSome = (idxOf? a l).isSome := by
        cases idxOf? a l <;> rfl
      rw [hmap, idxOf?_isSome_iff a l]
      constructor
      · exact Or.inr
      · rintro (rfl | h)
        · exact absurd rfl hb
        · exact h

theorem idxOf?_lt_length {α : Type} [DecidableEq α] (a : α) :
    ∀ (l : List α) (i : Nat), idxOf? a l = some i → i < l.length
  | [], i, h => by simp [idxOf?] at h
  | b :: l, i, h => by
    simp only [idxOf?] at h
    by_cases hb : b = a
    · rw [if_pos hb] at h; cases h; simp
    · rw [if_neg hb] at h
      cases hj : idxOf? a l with
      | none => rw [hj] at h; cases h
      | some j =>
        rw [hj] at h
        cases h
        have := idxOf?_lt_length a l j hj
        simpa using Nat.succ_lt_succ this

theorem idxOf?_getElem {α : Type} [DecidableEq α] :
    ∀ (l : List α), l.Nodup → ∀ (i : Nat) (hi : i < l.length), idxOf? l[i] l = some i
  | [], _, i, hi => by simp at hi
  | b :: l, hnd, i, hi => by
    rcases List.nodup_cons.1 hnd with ⟨hb, hnd'⟩
    cases i with
    | zero => simp [idxOf?]
    | succ j =>
      have hj : j < l.length := by simpa using hi
      simp only [idxOf?, List.getElem_cons_succ]
      rw [if_neg, idxOf?_getElem l hnd' j hj]
      · rfl
      · intro hcontra
        exact hb (hcontra ▸ List.getElem_mem hj)

theorem dictGet_mkIntMap {α : Type} [DecidableEq α] (k : α) :
    ∀ (e : List α) (s : Nat), dictGet (mkIntMap s e) k = (idxOf? k e).map (· + s)
  | [], s => rfl
  | a :: e, s => by
    simp only [mkIntMap, dictGet, idxOf?]
    by_cases ha : a = k
    · simp [ha]
    · rw [if_neg ha, if_neg ha, dictGet_mkIntMap k e (s + 1)]
      cases idxOf? k e with
      | none => rfl
      | some j => simp [Option.map_map]; omega

theorem npFancySet1_spec :
    ∀ (idxs : List Nat) (a : List Nat), (∀ j ∈ idxs, j < a.length) →
      ∃ w : List Nat, npFancySet1 a idxs = some w ∧ w.length = a.length ∧
        ∀ i : Nat, (i ∈ idxs → w[i]? = some 1) ∧ (i ∉ idxs → w[i]? = a[i]?)
  | [], a, _ => ⟨a, rfl, rfl, fun i => ⟨fun hi => absurd hi (List.not_mem_nil i), fun _ => rfl⟩⟩
  | j :: idxs, a, h => by
    have hj : j < a.length := h j (by simp)
    have hlen : (a.set j 1).length = a.length := List.length_set a j 1
    obtain ⟨w, hw, hwlen, hpt⟩ :=
      npFancySet1_spec idxs (a.set j 1) (fun x hx => hlen ▸ h x (by simp [hx]))
    refine ⟨w, ?_, hwlen.trans hlen, ?_⟩
    · simp only [npFancySet1, if_pos hj]; exact hw
    · intro i
      constructor
      · intro hi
        rcases List.mem_cons.1 hi with rfl | hi
        · by_cases hii : i ∈ idxs
          · exact (hpt i).1 hii
          · rw [(hpt i).2 hii]
            exact List.getElem?_set_self hj
        · exact (hpt i).1 hi
      · intro hi
        have hij : j ≠ i := fun hc => hi (hc ▸ List.mem_cons_self j idxs)
        have hii : i ∉ idxs := fun hc => hi (List.mem_cons.2 (Or.inr hc))
        rw [(hpt i).2 hii]
        exact List.getElem?_set_ne hij

theorem splitWsAux_length_le :
    ∀ s : Str, (∀ acc, (splitWsAux s acc).length ≤ s.length + 1) ∧
      (splitWsAux s []).length ≤ s.length
  | [] => by
    constructor
    · intro acc
      cases acc <;> simp [splitWsAux]
    · simp [splitWsAux]
  | c :: rest => by
    obtain ⟨ih1, ih2⟩ := splitWsAux_length_le rest
    constructor
    · intro acc
      cases acc with
      | nil =>
        simp only [splitWsAux, List.isEmpty_nil, if_true, if_pos]
        by_cases hc : pyIsSpace c
        · rw [if_pos hc]
          simp only [List.length_cons]
          omega
        · rw [if_neg hc]
          have := ih1 [c]
          simp only [List.length_cons]
          omega
      | cons b acc' =>
        simp only [splitWsAux, List.isEmpty_cons, Bool.false_eq_true, if_false]
        by_cases hc : pyIsSpace c
        · rw [if_pos hc]
          simp only [List.length_cons]
          have := ih2
          omega
        · rw [if_neg hc]
          have := ih1 (c :: b :: acc')
          simp only [List.length_cons]
          omega
    · simp only [splitWsAux, List.isEmpty_nil, if_true, if_pos]
      by_cases hc : pyIsSpace c
      · rw [if_pos hc]
        simp only [List.length_cons]
        omega
      · rw [if_neg hc]
        have := ih1 [c]
        simp only [List.length_cons]
        omega

theorem pySplit_length_le (s : Str) : (pySplit s).length ≤ s.length :=
  (splitWsAux_length_le s).2

theorem mkIntMap_length {α : Type} :
    ∀ (e : List α) (s : Nat), (mkIntMap s e).length = e.length
  | [], _ => rfl
  | _ :: e, s => by simp [mkIntMap, mkIntMap_length e (s + 1)]

theorem dictGet_isSome_of_mem {α : Type} [DecidableEq α] (e : List α) (s : Nat) (k : α)
    (hk : k ∈ e) : (dictGet (mkIntMap s e) k).isSome := by
  rw [dictGet_mkIntMap]
  have hsome := (idxOf?_isSome_iff k e).2 hk
  cases hj : idxOf? k e with
  | none => rw [hj] at hsome; simp at hsome
  | some j => rfl

theorem npPrefixAssign_replicate (n : Nat) (v : List Nat) :
    npPrefixAssign (List.replicate n 0) v = v ++ List.replicate (n - v.length) 0 := by
  simp [npPrefixAssign, List.drop_replicate]

/-! ### Claim theorems -/

/-- Case analysis of the helper returned by `title_encode`: with every word
lookup succeeding, more than 15 words yields the 15-character prefix of the
raw title, at most 15 words yields the zero-padded index vector, and a vector
is only ever produced in the second case. -/
theorem title_encode_branches
    (word_int_map : List (Str × Nat)) (title : Str) (ws : List Nat)
    (h : listComp (dictGet word_int_map) (pySplit title) = some ws) :
    (15 < (pySplit title).length →
      title_encode word_int_map title = some (TitleEnc.chars (title.take 15))) ∧
    ((pySplit title).length ≤ 15 →
      title_encode word_int_map title =
        some (TitleEnc.vector (ws ++ List.replicate (15 - ws.length) 0))) ∧
    (∀ v : List Nat, title_encode word_int_map title = some (TitleEnc.vector v) →
      (pySplit title).length ≤ 15) := by
  have hlen : ws.length = (pySplit title).length := listComp_length _ _ _ h
  refine ⟨fun h15 => ?_, fun h15 => ?_, fun v hv => ?_⟩
  · unfold title_encode
    rw [h]
    simp only [if_pos (show 15 < ws.length by omega)]
  · unfold title_encode
    rw [h]
    simp only [if_neg (show ¬ 15 < ws.length by omega)]
    rw [npPrefixAssign_replicate]
  · by_contra hgt
    push_neg at hgt
    unfold title_encode at hv
    rw [h] at hv
    simp only [if_pos (show 15 < ws.length by omega)] at hv
    cases hv

/-- Claim C1: for every title whose whitespace-split word list has more than
15 words, the helper produced by `title_encode` returns the first 15
characters of the raw untokenized title string rather than vocabulary
indices; only titles with at most 15 words are encoded as vocabulary-index
vectors. -/
theorem title_encode_overflow_takes_raw_chars
    (word_int_map : List (Str × Nat)) (title : Str) (ws : List Nat)
    (h : listComp (dictGet word_int_map) (pySplit title) = some ws) :
    (15 < (pySplit title).length →
      title_encode word_int_map title = some (TitleEnc.chars (title.take 15))) ∧
    ((pySplit title).length ≤ 15 →
      title_encode word_int_map title =
        some (TitleEnc.vector (ws ++ List.replicate (15 - ws.length) 0))) ∧
    (∀ v : List Nat, title_encode word_int_map title = some (TitleEnc.vector v) →
      (pySplit title).length ≤ 15) :=
  title_encode_branches word_int_map title ws h

/-- Witness for C1: a 16-word title is encoded as the 15-character prefix of
the raw title string, even though every word is present in the vocabulary. -/
theorem title_encode_overflow_takes_raw_chars_witness :
    title_encode
        (mkIntMap 1 [['a'], ['b'], ['c'], ['d'], ['e'], ['f'], ['g'], ['h'], ['i'], ['j'],
          ['k'], ['l'], ['m'], ['n'], ['o'], ['p']])
        "a b c d e f g h i j k l m n o p".toList =
      some (TitleEnc.chars "a b c d e f g h".toList) :=
  (title_encode_overflow_takes_raw_chars
      (mkIntMap 1 [['a'], ['b'], ['c'], ['d'], ['e'], ['f'], ['g'], ['h'], ['i'], ['j'],
        ['k'], ['l'], ['m'], ['n'], ['o'], ['p']])
      "a b c d e f g h i j k l m n o p".toList
      [1, 2, 3, 4, 5, 6, 7, 8, 9, 10, 11, 12, 13, 14, 15, 16]
      (by decide)).1 (by decide)

/-- Claim C2: for every movie of the corpus, the `TitleIndex` value has
exactly 15 elements; when the title has at most 15 words the value is a
vector whose entries beyond the word count are 0 and whose earlier entries
are the vocabulary indices of the title's words in order. -/
theorem titleIndex_len15_and_padding
    (movies : List Movie) (wEnum : List Str)
    (henum : SetEnum (allTitleWords movies) wEnum)
    (m : Movie) (hm : m ∈ movies) :
    ∃ r : TitleEnc, title_encode (mkIntMap 1 wEnum) m.titleWithoutYear = some r ∧
      r.len = 15 ∧
      ((pySplit m.titleWithoutYear).length ≤ 15 → ∃ v : List Nat,
        r = TitleEnc.vector v ∧
        (∀ i : Nat, (pySplit m.titleWithoutYear).length ≤ i → i < 15 → v[i]? = some 0) ∧
        (∀ (i : Nat) (w : Str), (pySplit m.titleWithoutYear)[i]? = some w →
          v[i]? = dictGet (mkIntMap 1 wEnum) w)) := by
  have hwords : ∀ w ∈ pySplit m.titleWithoutYear, (dictGet (mkIntMap 1 wEnum) w).isSome := by
    intro w hw
    refine dictGet_isSome_of_mem wEnum 1 w ((henum.2 w).2 ?_)
    exact List.mem_flatten.2 ⟨pySplit m.titleWithoutYear, List.mem_map_of_mem _ hm, hw⟩
  obtain ⟨ws, hws⟩ := Option.isSome_iff_exists.1
    (listComp_isSome (dictGet (mkIntMap 1 wEnum)) (pySplit m.titleWithoutYear) hwords)
  have hlen : ws.length = (pySplit m.titleWithoutYear).length := listComp_length _ _ _ hws
  obtain ⟨h1, h2, _⟩ := title_encode_branches (mkIntMap 1 wEnum)
    m.titleWithoutYear ws hws
  by_cases h15 : 15 < (pySplit m.titleWithoutYear).length
  · refine ⟨TitleEnc.chars (m.titleWithoutYear.take 15), h1 h15, ?_, fun hle => by omega⟩
    have htlen : 15 ≤ m.titleWithoutYear.length :=
      Nat.le_trans (by omega) (pySplit_length_le m.titleWithoutYear)
    simp [TitleEnc.len, Nat.min_eq_left htlen]
  · push_neg at h15
    refine ⟨TitleEnc.vector (ws ++ List.replicate (15 - ws.length) 0), h2 h15, ?_, ?_⟩
    · simp [TitleEnc.len]
      omega
    · intro _
      refine ⟨ws ++ List.replicate (15 - ws.length) 0, rfl, ?_, ?_⟩
      · intro i hge hlt
        rw [List.getElem?_append_right (by omega)]
        rw [List.getElem?_replicate_of_lt (by omega)]
      · intro i w hw
        obtain ⟨b, hb, hfb⟩ := listComp_getElem? _ _ ws hws i w hw
        have hib : i < ws.length := by
          have := List.getElem?_eq_some_iff.1 hb
          exact this.1
        rw [List.getElem?_append_left hib, hb, hfb]

/-- Witness for C2: a two-movie corpus (one 2-word title, one 16-word title)
with its word vocabulary; both titles encode to a 15-element value, and the
2-word title's vector is padded with zeros beyond position 1. -/
theorem titleIndex_len15_and_padding_witness :
    SetEnum
      (allTitleWords
        [⟨1, "x y".toList, "g".toList⟩,
         ⟨2, "a b c d e f g h i j k l m n o p".toList, "g".toList⟩])
      ["x".toList, "y".toList, "a".toList, "b".toList, "c".toList, "d".toList, "e".toList,
        "f".toList, "g".toList, "h".toList, "i".toList, "j".toList, "k".toList, "l".toList,
        "m".toList, "n".toList, "o".toList, "p".toList] ∧
    ∃ r : TitleEnc,
      title_encode
          (mkIntMap 1 ["x".toList, "y".toList, "a".toList, "b".toList, "c".toList, "d".toList,
            "e".toList, "f".toList, "g".toList, "h".toList, "i".toList, "j".toList, "k".toList,
            "l".toList, "m".toList, "n".toList, "o".toList, "p".toList])
          (Movie.titleWithoutYear ⟨1, "x y".toList, "g".toList⟩) = some r ∧
      r.len = 15 ∧
      ((pySplit (Movie.titleWithoutYear ⟨1, "x y".toList, "g".toList⟩)).length ≤ 15 →
        ∃ v : List Nat,
        r = TitleEnc.vector v ∧
        (∀ i : Nat,
          (pySplit (Movie.titleWithoutYear ⟨1, "x y".toList, "g".toList⟩)).length ≤ i →
            i < 15 → v[i]? = some 0) ∧
        (∀ (i : Nat) (w : Str),
          (pySplit (Movie.titleWithoutYear ⟨1, "x y".toList, "g".toList⟩))[i]? = some w →
            v[i]? = dictGet
              (mkIntMap 1 ["x".toList, "y".toList, "a".toList, "b".toList, "c".toList,
                "d".toList, "e".toList, "f".toList, "g".toList, "h".toList, "i".toList,
                "j".toList, "k".toList, "l".toList, "m".toList, "n".toList, "o".toList,
                "p".toList]) w)) := by
  have he : SetEnum
      (allTitleWords
        [⟨1, "x y".toList, "g".toList⟩,
         ⟨2, "a b c d e f g h i j k l m n o p".toList, "g".toList⟩])
      ["x".toList, "y".toList, "a".toList, "b".toList, "c".toList, "d".toList, "e".toList,
        "f".toList, "g".toList, "h".toList, "i".toList, "j".toList, "k".toList, "l".toList,
        "m".toList, "n".toList, "o".toList, "p".toList] := by
    constructor
    · decide
    · intro a
      rw [show allTitleWords
        [⟨1, "x y".toList, "g".toList⟩,
         ⟨2, "a b c d e f g h i j k l m n o p".toList, "g".toList⟩] =
        ["x".toList, "y".toList, "a".toList, "b".toList, "c".toList, "d".toList, "e".toList,
          "f".toList, "g".toList, "h".toList, "i".toList, "j".toList, "k".toList, "l".toList,
          "m".toList, "n".toList, "o".toList, "p".toList] from by decide]
  exact ⟨he, titleIndex_len15_and_padding _ _ he _ (by simp)⟩

theorem npFancySet1_mem :
    ∀ (idxs a w : List Nat), npFancySet1 a idxs = some w → ∀ x ∈ w, x ∈ a ∨ x = 1
  | [], a, w, h => by
    simp only [npFancySet1] at h
    cases h
    exact fun x hx => Or.inl hx
  | i :: idxs, a, w, h => by
    simp only [npFancySet1] at h
    by_cases hi : i < a.length
    · rw [if_pos hi] at h
      intro x hx
      rcases npFancySet1_mem idxs (a.set i 1) w h x hx with hxa | hx1
      · rcases List.mem_or_eq_of_mem_set hxa with h' | h'
        · exact Or.inl h'
        · exact Or.inr h'
      · exact Or.inr hx1
    · rw [if_neg hi] at h
      cases h

/-- All tokens of one movie are found in a vocabulary enumerated from the
whole corpus. -/
theorem corpus_tokens_isSome (movies : List Movie) (gEnum : List Str) (s : Nat)
    (henum : SetEnum (allGenreTokens movies) gEnum) (m : Movie) (hm : m ∈ movies) :
    ∀ t ∈ splitSep '|' m.genres, (dictGet (mkIntMap s gEnum) t).isSome := by
  intro t ht
  refine dictGet_isSome_of_mem gEnum s t ((henum.2 t).2 ?_)
  exact List.mem_flatten.2 ⟨splitSep '|' m.genres, List.mem_map_of_mem _ hm, ht⟩

/-- All title words of one movie are found in a vocabulary enumerated from
the whole corpus. -/
theorem corpus_words_isSome (movies : List Movie) (wEnum : List Str) (s : Nat)
    (henum : SetEnum (allTitleWords movies) wEnum) (m : Movie) (hm : m ∈ movies) :
    ∀ w ∈ pySplit m.titleWithoutYear, (dictGet (mkIntMap s wEnum) w).isSome := by
  intro w hw
  refine dictGet_isSome_of_mem wEnum s w ((henum.2 w).2 ?_)
  exact List.mem_flatten.2 ⟨pySplit m.titleWithoutYear, List.mem_map_of_mem _ hm, hw⟩

/-- Full characterisation of `GenresMultiHot` for a movie of the corpus: the
vector exists, has the dict's length, and its bit `i` is 1 exactly when some
pipe-split token of the movie is assigned index `i`. -/
theorem genres_multi_hot_bits
    (movies : List Movie) (gEnum : List Str)
    (henum : SetEnum (allGenreTokens movies) gEnum)
    (m : Movie) (hm : m ∈ movies) :
    ∃ v : List Nat, genres_multi_hot (mkIntMap 0 gEnum) m.genres = some v ∧
      v.length = (mkIntMap 0 gEnum).length ∧
      ∀ i : Nat, i < v.length →
        ((∃ t ∈ splitSep '|' m.genres, dictGet (mkIntMap 0 gEnum) t = some i) →
          v[i]? = some 1) ∧
        (¬(∃ t ∈ splitSep '|' m.genres, dictGet (mkIntMap 0 gEnum) t = some i) →
          v[i]? = some 0) := by
  have htok := corpus_tokens_isSome movies gEnum 0 henum m hm
  obtain ⟨idxs, hidxs⟩ := Option.isSome_iff_exists.1
    (listComp_isSome (dictGet (mkIntMap 0 gEnum)) (splitSep '|' m.genres) htok)
  have hrange : ∀ j ∈ idxs, j < (List.replicate (mkIntMap 0 gEnum).length 0).length := by
    intro j hj
    obtain ⟨t, ht, hdt⟩ := (listComp_mem _ _ idxs hidxs j).1 hj
    rw [dictGet_mkIntMap] at hdt
    cases hio : idxOf? t gEnum with
    | none => rw [hio] at hdt; cases hdt
    | some j0 =>
      rw [hio] at hdt
      simp only [Option.map_some', Option.some_inj] at hdt
      have hj0 := idxOf?_lt_length t gEnum j0 hio
      rw [List.length_replicate, mkIntMap_length]
      omega
  obtain ⟨w, hw, hwlen, hpt⟩ :=
    npFancySet1_spec idxs (List.replicate (mkIntMap 0 gEnum).length 0) hrange
  rw [List.length_replicate] at hwlen
  refine ⟨w, ?_, hwlen, ?_⟩
  · unfold genres_multi_hot
    rw [hidxs]
    exact hw
  · intro i hi
    constructor
    · rintro ⟨t, ht, hdt⟩
      exact (hpt i).1 ((listComp_mem _ _ idxs hidxs i).2 ⟨t, ht, hdt⟩)
    · intro hnot
      have hni : i ∉ idxs := fun hin => hnot ((listComp_mem _ _ idxs hidxs i).1 hin)
      rw [(hpt i).2 hni]
      rw [List.getElem?_replicate_of_lt]
      omega

/-- Claim C5: for every movie of the corpus, `GenresMultiHot` has length
`len(genre_int_map)` and carries a 1 exactly at the indices assigned to the
movie's pipe-split genre tokens, 0 everywhere else. -/
theorem genresMultiHot_len_and_bits
    (movies : List Movie) (gEnum : List Str)
    (henum : SetEnum (allGenreTokens movies) gEnum)
    (m : Movie) (hm : m ∈ movies) :
    ∃ v : List Nat, genres_multi_hot (mkIntMap 0 gEnum) m.genres = some v ∧
      v.length = (mkIntMap 0 gEnum).length ∧
      ∀ i : Nat, i < v.length →
        ((∃ t ∈ splitSep '|' m.genres, dictGet (mkIntMap 0 gEnum) t = some i) →
          v[i]? = some 1) ∧
        (¬(∃ t ∈ splitSep '|' m.genres, dictGet (mkIntMap 0 gEnum) t = some i) →
          v[i]? = some 0) :=
  genres_multi_hot_bits movies gEnum henum m hm

/-- Witness for C5: a concrete two-movie corpus whose genre vocabulary is
enumerated as `[a, c, b]`; the first movie's multi-hot vector satisfies the
characterisation. -/
theorem genresMultiHot_len_and_bits_witness :
    SetEnum
      (allGenreTokens [⟨1, "t".toList, "a|c".toList⟩, ⟨2, "u".toList, "b".toList⟩])
      [['a'], ['c'], ['b']] ∧
    ∃ v : List Nat,
      genres_multi_hot (mkIntMap 0 [['a'], ['c'], ['b']])
        (Movie.genres ⟨1, "t".toList, "a|c".toList⟩) = some v ∧
      v.length = (mkIntMap 0 [['a'], ['c'], ['b']]).length ∧
      ∀ i : Nat, i < v.length →
        ((∃ t ∈ splitSep '|' (Movie.genres ⟨1, "t".toList, "a|c".toList⟩),
            dictGet (mkIntMap 0 [['a'], ['c'], ['b']]) t = some i) → v[i]? = some 1) ∧
        (¬(∃ t ∈ splitSep '|' (Movie.genres ⟨1, "t".toList, "a|c".toList⟩),
            dictGet (mkIntMap 0 [['a'], ['c'], ['b']]) t = some i) → v[i]? = some 0) := by
  have he : SetEnum
      (allGenreTokens [⟨1, "t".toList, "a|c".toList⟩, ⟨2, "u".toList, "b".toList⟩])
      [['a'], ['c'], ['b']] := by
    refine ⟨by decide, fun a => ?_⟩
    rw [show allGenreTokens [⟨1, "t".toList, "a|c".toList⟩, ⟨2, "u".toList, "b".toList⟩] =
      [['a'], ['c'], ['b']] from by decide]
  exact ⟨he, genresMultiHot_len_and_bits _ _ he _ (by simp)⟩

/-- Claim C9: with both vocabularies built over the whole corpus by the same
tokenisations used for encoding, every lookup made by the two encoders
succeeds, and both encoders return a value for every movie — the KeyError
branch is unreachable in a single run. -/
theorem encoding_lookups_never_fail
    (movies : List Movie) (gEnum wEnum : List Str)
    (hg : SetEnum (allGenreTokens movies) gEnum)
    (hw : SetEnum (allTitleWords movies) wEnum)
    (m : Movie) (hm : m ∈ movies) :
    (∀ t ∈ splitSep '|' m.genres, (dictGet (mkIntMap 0 gEnum) t).isSome) ∧
    (∀ w ∈ pySplit m.titleWithoutYear, (dictGet (mkIntMap 1 wEnum) w).isSome) ∧
    (genres_multi_hot (mkIntMap 0 gEnum) m.genres).isSome ∧
    (title_encode (mkIntMap 1 wEnum) m.titleWithoutYear).isSome := by
  have htok := corpus_tokens_isSome movies gEnum 0 hg m hm
  have hwords := corpus_words_isSome movies wEnum 1 hw m hm
  refine ⟨htok, hwords, ?_, ?_⟩
  · obtain ⟨v, hv, _⟩ := genres_multi_hot_bits movies gEnum hg m hm
    rw [hv]
    rfl
  · obtain ⟨ws, hws⟩ := Option.isSome_iff_exists.1
      (listComp_isSome (dictGet (mkIntMap 1 wEnum)) (pySplit m.titleWithoutYear) hwords)
    unfold title_encode
    rw [hws]
    by_cases h : 15 < ws.length <;> simp [h]

/-- Witness for C9: the two-movie corpus with its genre and word vocabularies;
every lookup and both encoders succeed for the first movie. -/
theorem encoding_lookups_never_fail_witness :
    SetEnum (allGenreTokens [⟨1, "x y".toList, "a|c".toList⟩, ⟨2, "u v".toList, "b".toList⟩])
      [['a'], ['c'], ['b']] ∧
    SetEnum (allTitleWords [⟨1, "x y".toList, "a|c".toList⟩, ⟨2, "u v".toList, "b".toList⟩])
      [['x'], ['y'], ['u'], ['v']] ∧
    (genres_multi_hot (mkIntMap 0 [['a'], ['c'], ['b']])
      (Movie.genres ⟨1, "x y".toList, "a|c".toList⟩)).isSome ∧
    (title_encode (mkIntMap 1 [['x'], ['y'], ['u'], ['v']])
      (Movie.titleWithoutYear ⟨1, "x y".toList, "a|c".toList⟩)).isSome := by
  have hg : SetEnum
      (allGenreTokens [⟨1, "x y".toList, "a|c".toList⟩, ⟨2, "u v".toList, "b".toList⟩])
      [['a'], ['c'], ['b']] := by
    refine ⟨by decide, fun a => ?_⟩
    rw [show allGenreTokens [⟨1, "x y".toList, "a|c".toList⟩, ⟨2, "u v".toList, "b".toList⟩] =
      [['a'], ['c'], ['b']] from by decide]
  have hw : SetEnum
      (allTitleWords [⟨1, "x y".toList, "a|c".toList⟩, ⟨2, "u v".toList, "b".toList⟩])
      [['x'], ['y'], ['u'], ['v']] := by
    refine ⟨by decide, fun a => ?_⟩
    rw [show allTitleWords [⟨1, "x y".toList, "a|c".toList⟩, ⟨2, "u v".toList, "b".toList⟩] =
      [['x'], ['y'], ['u'], ['v']] from by decide]
  obtain ⟨_, _, h3, h4⟩ := encoding_lookups_never_fail
    [⟨1, "x y".toList, "a|c".toList⟩, ⟨2, "u v".toList, "b".toList⟩]
    [['a'], ['c'], ['b']] [['x'], ['y'], ['u'], ['v']] hg hw
    ⟨1, "x y".toList, "a|c".toList⟩ (by simp)
  exact ⟨hg, hw, h3, h4⟩

/-- Claim C10: whenever the multi-hot encoder returns a vector — in
particular for genre strings in which the same token appears more than once —
every entry of the vector is exactly 0 or 1: repeated tokens do not
accumulate. -/
theorem genresMultiHot_entries_binary
    (genre_int_map : List (Str × Nat)) (genres : Str)
    (htok : ∀ t ∈ splitSep '|' genres, (dictGet genre_int_map t).isSome)
    (v : List Nat) (hv : genres_multi_hot genre_int_map genres = some v) :
    ∀ x ∈ v, x = 0 ∨ x = 1 := by
  unfold genres_multi_hot at hv
  cases hcl : listComp (dictGet genre_int_map) (splitSep '|' genres) with
  | none => rw [hcl] at hv; cases hv
  | some idxs =>
    rw [hcl] at hv
    intro x hx
    rcases npFancySet1_mem idxs (List.replicate genre_int_map.length 0) v hv x hx with hx0 | hx1
    · exact Or.inl (List.eq_of_mem_replicate hx0)
    · exact Or.inr hx1

/-- Witness for C10: the genres string `a|b|a` repeats the token `a`; the
returned vector is `[1, 1]`, all entries 0 or 1. -/
theorem genresMultiHot_entries_binary_witness :
    genres_multi_hot [(['a'], 0), (['b'], 1)] "a|b|a".toList = some [1, 1] ∧
    ∀ x ∈ ([1, 1] : List Nat), x = 0 ∨ x = 1 :=
  ⟨by decide,
    genresMultiHot_entries_binary [(['a'], 0), (['b'], 1)] "a|b|a".toList
      (by decide) [1, 1] (by decide)⟩

/-- Counterexample to C3 as stated: in a corpus whose only observed gender is
`M`, the zero-based enumeration of the observed gender set (which can only be
`[M]`) assigns `M` index 0, but the code's `GenderIndex` for that row is 1 —
the gender remapping is the fixed dict `{F: 0, M: 1}`, not derived from the
observed data. -/
theorem genderIndex_not_enumeration_counterexample :
    (genderIndexCol [⟨1, mStr, 25, 0⟩])[0]? = some (some 1) ∧
    SetEnum (([⟨1, mStr, 25, 0⟩] : List User).map User.gender) [mStr] ∧
    dictGet (mkIntMap 0 [mStr]) mStr = some 0 ∧
    (1 : Nat) ≠ 0 :=
  ⟨by decide, ⟨by decide, fun a => Iff.rfl⟩, by decide, by decide⟩

/-- Claim C3 (amended): only the age remapping is derived from the data
actually present — for every enumeration of the observed age set, each
observed age is assigned its zero-based position in that enumeration, and the
assigned indices are dense (every index below the number of distinct ages is
used); the gender remapping is instead the fixed external dict `{F: 0, M: 1}`,
whose per-row value does not depend on the corpus. -/
theorem ageIndex_enumeration_order_gender_fixed
    (users : List User) (ageEnum : List Nat)
    (henum : SetEnum (users.map User.age) ageEnum) :
    (∀ u ∈ users, ∃ i : Nat, age_map ageEnum u.age = some i ∧
      idxOf? u.age ageEnum = some i ∧ i < ageEnum.length) ∧
    (∀ i : Nat, i < ageEnum.length → ∃ u ∈ users, age_map ageEnum u.age = some i) ∧
    (∀ (us1 us2 : List User) (j k : Nat) (u1 u2 : User),
      us1[j]? = some u1 → us2[k]? = some u2 → u1.gender = u2.gender →
      (genderIndexCol us1)[j]? = (genderIndexCol us2)[k]?) := by
  refine ⟨?_, ?_, ?_⟩
  · intro u hu
    have hmem : u.age ∈ ageEnum :=
      (henum.2 u.age).2 (List.mem_map.2 ⟨u, hu, rfl⟩)
    obtain ⟨i, hi⟩ := Option.isSome_iff_exists.1 ((idxOf?_isSome_iff u.age ageEnum).2 hmem)
    refine ⟨i, ?_, hi, idxOf?_lt_length _ _ _ hi⟩
    rw [age_map, dictGet_mkIntMap, hi]
    simp
  · intro i hilt
    have hmem : ageEnum[i] ∈ users.map User.age :=
      (henum.2 ageEnum[i]).1 (List.getElem_mem hilt)
    obtain ⟨u, hu, hua⟩ := List.mem_map.1 hmem
    refine ⟨u, hu, ?_⟩
    rw [age_map, dictGet_mkIntMap, hua, idxOf?_getElem ageEnum henum.1 i hilt]
    simp
  · intro us1 us2 j k u1 u2 h1 h2 hg
    simp only [genderIndexCol, List.getElem?_map, h1, h2, Option.map_some']
    rw [hg]

/-- Witness for the amended C3: a two-user corpus with ages 25 and 35 and the
enumeration order `[35, 25]` of its age set; the conclusion holds for it. -/
theorem ageIndex_enumeration_order_gender_fixed_witness :
    SetEnum (([⟨1, fStr, 25, 0⟩, ⟨2, mStr, 35, 1⟩] : List User).map User.age) [35, 25] ∧
    (∀ u ∈ ([⟨1, fStr, 25, 0⟩, ⟨2, mStr, 35, 1⟩] : List User), ∃ i : Nat,
      age_map [35, 25] u.age = some i ∧
      idxOf? u.age [35, 25] = some i ∧ i < ([35, 25] : List Nat).length) ∧
    (∀ i : Nat, i < ([35, 25] : List Nat).length →
      ∃ u ∈ ([⟨1, fStr, 25, 0⟩, ⟨2, mStr, 35, 1⟩] : List User),
        age_map [35, 25] u.age = some i) := by
  have he : SetEnum (([⟨1, fStr, 25, 0⟩, ⟨2, mStr, 35, 1⟩] : List User).map User.age)
      [35, 25] := by
    refine ⟨by decide, fun a => ?_⟩
    show a ∈ [35, 25] ↔ a ∈ [25, 35]
    simp only [List.mem_cons, List.not_mem_nil, or_false]
    tauto
  obtain ⟨h1, h2, _⟩ := ageIndex_enumeration_order_gender_fixed
    [⟨1, fStr, 25, 0⟩, ⟨2, mStr, 35, 1⟩] [35, 25] he
  exact ⟨he, h1, h2⟩

/-- Claim C4: every users-table row whose gender is `F` or `M` receives a
`GenderIndex` of 0 or 1 equal to the fixed map `{F: 0, M: 1}` applied to its
gender, and the value assigned to a row does not depend on which gender
values occur in the rest of the corpus. -/
theorem genderIndex_matches_fixed_map
    (users : List User) (i : Nat) (u : User)
    (hu : users[i]? = some u) (hg : u.gender = fStr ∨ u.gender = mStr) :
    ∃ g : Nat, (genderIndexCol users)[i]? = some (some g) ∧ (g = 0 ∨ g = 1) ∧
      some g = gender_map u.gender ∧
      g = (if u.gender = fStr then 0 else 1) ∧
      ∀ (users' : List User) (j : Nat), users'[j]? = some u →
        (genderIndexCol users')[j]? = some (some g) := by
  have hcol : ∀ (us : List User) (k : Nat), us[k]? = some u →
      (genderIndexCol us)[k]? = some (gender_map u.gender) := by
    intro us k hk
    simp only [genderIndexCol, List.getElem?_map, hk, Option.map_some']
  rcases hg with hgF | hgM
  · refine ⟨0, ?_, Or.inl rfl, ?_, ?_, ?_⟩
    · rw [hcol users i hu, gender_map, if_pos hgF]
    · rw [gender_map, if_pos hgF]
    · rw [if_pos hgF]
    · intro us' j hj
      rw [hcol us' j hj, gender_map, if_pos hgF]
  · have hgnF : ¬ u.gender = fStr := by
      rw [hgM]
      decide
    refine ⟨1, ?_, Or.inr rfl, ?_, ?_, ?_⟩
    · rw [hcol users i hu, gender_map, if_neg hgnF, if_pos hgM]
    · rw [gender_map, if_neg hgnF, if_pos hgM]
    · rw [if_neg hgnF]
    · intro us' j hj
      rw [hcol us' j hj, gender_map, if_neg hgnF, if_pos hgM]

/-- Witness for C4: a concrete two-row users table; the F row at position 0
receives `GenderIndex` 0. -/
theorem genderIndex_matches_fixed_map_witness :
    ([⟨1, fStr, 25, 0⟩, ⟨2, mStr, 35, 1⟩] : List User)[0]? = some ⟨1, fStr, 25, 0⟩ ∧
    ∃ g : Nat,
      (genderIndexCol [⟨1, fStr, 25, 0⟩, ⟨2, mStr, 35, 1⟩])[0]? = some (some g) ∧
      (g = 0 ∨ g = 1) ∧
      some g = gender_map (User.gender ⟨1, fStr, 25, 0⟩) ∧
      g = (if User.gender ⟨1, fStr, 25, 0⟩ = fStr then 0 else 1) ∧
      ∀ (users' : List User) (j : Nat), users'[j]? = some ⟨1, fStr, 25, 0⟩ →
        (genderIndexCol users')[j]? = some (some g) :=
  ⟨by decide,
    genderIndex_matches_fixed_map [⟨1, fStr, 25, 0⟩, ⟨2, mStr, 35, 1⟩] 0
      ⟨1, fStr, 25, 0⟩ (by decide) (Or.inl rfl)⟩

theorem filterMap_getElem?_length {α : Type} (X : List α) :
    ∀ l : List Nat, (∀ i ∈ l, i < X.length) →
      (l.filterMap (fun i => X[i]?)).length = l.length
  | [], _ => rfl
  | i :: l, h => by
    have hi : i < X.length := h i (by simp)
    rw [List.filterMap_cons, List.getElem?_eq_getElem hi]
    simp only [List.length_cons]
    rw [filterMap_getElem?_length X l (fun j hj => h j (by simp [hj]))]

theorem permIndices_perm (seed n : Nat) : (permIndices seed n).Perm (List.range n) :=
  List.rotate_perm (List.range n) (seed % (n + 1))

theorem permIndices_nodup (seed n : Nat) : (permIndices seed n).Nodup :=
  (permIndices_perm seed n).nodup_iff.2 (List.nodup_range n)

theorem permIndices_length (seed n : Nat) : (permIndices seed n).length = n := by
  rw [permIndices, List.length_rotate, List.length_range]

theorem permIndices_mem_lt (seed n : Nat) (i : Nat) (hi : i ∈ permIndices seed n) : i < n :=
  List.mem_range.1 ((permIndices_perm seed n).mem_iff.1 hi)

/-- Claim C6: the test and train partitions are disjoint, their sizes sum to
the full row count, and the test size is a 0.2 fraction of the total up to
integer rounding (it is `ceil(n / 5)`). -/
theorem split_partitions_sound {α β : Type} (X : List α) (y : List β)
    (hy : y.length = X.length) (seed : Nat) :
    (∀ i : Nat, i ∈ (train_test_split X y seed).testIdx →
      i ∉ (train_test_split X y seed).trainIdx) ∧
    (train_test_split X y seed).testIdx.length +
      (train_test_split X y seed).trainIdx.length = X.length ∧
    (train_test_split X y seed).testX.length +
      (train_test_split X y seed).trainX.length = X.length ∧
    (train_test_split X y seed).testY.length +
      (train_test_split X y seed).trainY.length = y.length ∧
    X.length ≤ 5 * (train_test_split X y seed).testIdx.length ∧
    5 * (train_test_split X y seed).testIdx.length ≤ X.length + 4 := by
  set n := X.length with hn
  set k := testCount n with hk
  have hk5 : 5 * k ≤ n + 4 ∧ n ≤ 5 * k := by
    rw [hk, testCount]
    omega
  have hkn : k ≤ n := by omega
  have hperm := permIndices_perm seed n
  have hnd := permIndices_nodup seed n
  have hplen := permIndices_length seed n
  have hsplit : permIndices seed n =
      (permIndices seed n).take k ++ (permIndices seed n).drop k :=
    (List.take_append_drop k (permIndices seed n)).symm
  have hdisj : List.Disjoint ((permIndices seed n).take k) ((permIndices seed n).drop k) :=
    List.disjoint_of_nodup_append (hsplit ▸ hnd)
  have htelen : ((permIndices seed n).take k).length = k := by
    rw [List.length_take, hplen]
    omega
  have htrlen : ((permIndices seed n).drop k).length = n - k := by
    rw [List.length_drop, hplen]
  have hmemX : ∀ l : List Nat, (∀ i ∈ l, i ∈ permIndices seed n) →
      (l.filterMap (fun i => X[i]?)).length = l.length := by
    intro l hl
    exact filterMap_getElem?_length X l (fun i hi => permIndices_mem_lt seed n i (hl i hi))
  have hmemY : ∀ l : List Nat, (∀ i ∈ l, i ∈ permIndices seed n) →
      (l.filterMap (fun i => y[i]?)).length = l.length := by
    intro l hl
    refine filterMap_getElem?_length y l (fun i hi => ?_)
    rw [hy]
    exact permIndices_mem_lt seed n i (hl i hi)
  refine ⟨?_, ?_, ?_, ?_, ?_, ?_⟩
  · intro i hite hitr
    exact hdisj hite hitr
  · show ((permIndices seed n).take k).length + ((permIndices seed n).drop k).length = n
    rw [htelen, htrlen]
    omega
  · show (((permIndices seed n).take k).filterMap (fun i => X[i]?)).length +
      (((permIndices seed n).drop k).filterMap (fun i => X[i]?)).length = n
    rw [hmemX _ (fun i hi => List.mem_of_mem_take hi),
      hmemX _ (fun i hi => List.mem_of_mem_drop hi), htelen, htrlen]
    omega
  · show (((permIndices seed n).take k).filterMap (fun i => y[i]?)).length +
      (((permIndices seed n).drop k).filterMap (fun i => y[i]?)).length = y.length
    rw [hmemY _ (fun i hi => List.mem_of_mem_take hi),
      hmemY _ (fun i hi => List.mem_of_mem_drop hi), htelen, htrlen, hy]
    omega
  · show n ≤ 5 * ((permIndices seed n).take k).length
    rw [htelen]
    omega
  · show 5 * ((permIndices seed n).take k).length ≤ n + 4
    rw [htelen]
    omega

/-- Witness for C6: a concrete 3-row split with seed 0; the test partition
has 1 row and the train partition 2 rows. -/
theorem split_partitions_sound_witness :
    ([4, 5, 6] : List Nat).length = ([10, 20, 30] : List Nat).length ∧
    ((∀ i : Nat, i ∈ (train_test_split [10, 20, 30] [4, 5, 6] 0).testIdx →
      i ∉ (train_test_split [10, 20, 30] [4, 5, 6] 0).trainIdx) ∧
    (train_test_split [10, 20, 30] [4, 5, 6] 0).testIdx.length +
      (train_test_split [10, 20, 30] [4, 5, 6] 0).trainIdx.length
      = ([10, 20, 30] : List Nat).length ∧
    (train_test_split [10, 20, 30] [4, 5, 6] 0).testX.length +
      (train_test_split [10, 20, 30] [4, 5, 6] 0).trainX.length
      = ([10, 20, 30] : List Nat).length ∧
    (train_test_split [10, 20, 30] [4, 5, 6] 0).testY.length +
      (train_test_split [10, 20, 30] [4, 5, 6] 0).trainY.length
      = ([4, 5, 6] : List Nat).length ∧
    ([10, 20, 30] : List Nat).length ≤
      5 * (train_test_split [10, 20, 30] [4, 5, 6] 0).testIdx.length ∧
    5 * (train_test_split [10, 20, 30] [4, 5, 6] 0).testIdx.length ≤
      ([10, 20, 30] : List Nat).length + 4) :=
  ⟨by decide, split_partitions_sound [10, 20, 30] [4, 5, 6] (by decide) 0⟩

/-- Claim C7: the split is deterministic — two runs of the splitter on the
same features and labels with the same seed (the script fixes seed 0 and
fraction 0.2) assign exactly the same rows to the train partition and to the
test partition. In this embedding the splitter is a pure function of the
data and the seed, so equal seeds give equal partitions. -/
theorem split_deterministic {α β : Type} (X : List α) (y : List β) (s1 s2 : Nat)
    (hs : s1 = s2) :
    (train_test_split X y s1).trainIdx = (train_test_split X y s2).trainIdx ∧
    (train_test_split X y s1).testIdx = (train_test_split X y s2).testIdx ∧
    (train_test_split X y s1).trainX = (train_test_split X y s2).trainX ∧
    (train_test_split X y s1).testX = (train_test_split X y s2).testX ∧
    (train_test_split X y s1).trainY = (train_test_split X y s2).trainY ∧
    (train_test_split X y s1).testY = (train_test_split X y s2).testY := by
  subst hs
  exact ⟨rfl, rfl, rfl, rfl, rfl, rfl⟩

/-- Witness for C7: two runs on a concrete table with the fixed seed 0. -/
theorem split_deterministic_witness :
    (0 : Nat) = 0 ∧
    (train_test_split ([10, 20, 30] : List Nat) ([4, 5, 6] : List Nat) 0).trainIdx =
      (train_test_split ([10, 20, 30] : List Nat) ([4, 5, 6] : List Nat) 0).trainIdx ∧
    (train_test_split ([10, 20, 30] : List Nat) ([4, 5, 6] : List Nat) 0).testIdx =
      (train_test_split ([10, 20, 30] : List Nat) ([4, 5, 6] : List Nat) 0).testIdx :=
  ⟨rfl,
    (split_deterministic ([10, 20, 30] : List Nat) ([4, 5, 6] : List Nat) 0 0 rfl).1,
    (split_deterministic ([10, 20, 30] : List Nat) ([4, 5, 6] : List Nat) 0 0 rfl).2.1⟩

/-- Claim C8: if the archive already exists at the expected path the fetcher
performs no download and no hash validation and returns the expected path;
otherwise it downloads, checks the MD5 digest against the expected constant,
returns the path on a match, and on a mismatch fails fatally with the message
instructing removal of the bad file. -/
theorem download_skip_or_validate (fileExists : Bool) (md5 : String) (save_path : String) :
    (fileExists = true →
      download_ml_1m fileExists md5 save_path =
        { downloaded := false, hashChecked := false,
          result := Except.ok (save_path ++ "/ml-1m.zip") }) ∧
    (fileExists = false →
      (download_ml_1m fileExists md5 save_path).downloaded = true ∧
      (download_ml_1m fileExists md5 save_path).hashChecked = true ∧
      (md5 = hash_code →
        (download_ml_1m fileExists md5 save_path).result =
          Except.ok (save_path ++ "/ml-1m.zip")) ∧
      (md5 ≠ hash_code →
        (download_ml_1m fileExists md5 save_path).result =
          Except.error (save_path ++ " file is corrupted. Remove the file and try again."))) := by
  constructor
  · intro he
    subst he
    rfl
  · intro he
    subst he
    by_cases hm : md5 = hash_code
    · exact ⟨by simp [download_ml_1m, hm], by simp [download_ml_1m, hm],
        fun _ => by simp [download_ml_1m, hm], fun hne => absurd hm hne⟩
    · exact ⟨by simp [download_ml_1m, hm], by simp [download_ml_1m, hm],
        fun heq => absurd heq hm, fun _ => by simp [download_ml_1m, hm]⟩

/-- Witness for C8: with the file present nothing is downloaded or checked;
with the file absent and a wrong digest the run fails with the removal
message. -/
theorem download_skip_or_validate_witness :
    download_ml_1m true "deadbeef" "./data" =
      { downloaded := false, hashChecked := false,
        result := Except.ok "./data/ml-1m.zip" } ∧
    (download_ml_1m false "deadbeef" "./data").result =
      Except.error "./data file is corrupted. Remove the file and try again." :=
  ⟨(download_skip_or_validate true "deadbeef" "./data").1 rfl,
    ((download_skip_or_validate false "deadbeef" "./data").2 rfl).2.2.2 (by decide)⟩

end PreProcessing
